import Mathlib

/-!
Shallow embedding of the migration engine of `gormmigrate` (src/migrate.go).

The engine talks to the database only through a handful of SQL statements:
table-existence check plus `CREATE TABLE` (`createMigrationTableIfNotExists`),
`SELECT COUNT(*)` over the whole ledger (`isFirstRun`), `SELECT COUNT(*)`
filtered by one identifier (`migrationDidRun`), and a single-row `INSERT`
(`insertMigration`).  We model the observable database state as the ledger
table (its existence flag and its rows, in insertion order) and model every
other effect of a migration action by the error value the engine observes,
since the engine never inspects anything else about an action.  Database
failures are modelled by a fault oracle assigning to each operation the error
it reports, `none` meaning success.  The primary-key constraint of the ledger
table (`CREATE TABLE t (id VARCHAR(255) PRIMARY KEY)`) is part of the database
semantics: inserting an identifier that is already present always fails.

Each run additionally produces a trace of instrumentation events recording
which side effects happened (`CREATE TABLE` issued, init-schema function
invoked, a migration action at a given list position invoked), which lets
theorems speak about "action X was (never) invoked".
-/

namespace Gormmigrate

/-- Error values observed by the engine.  `errMissingID` models the package
variable `ErrMissingID`; `dupKey id` models the database error raised by the
ledger's primary-key constraint when `id` is inserted twice; `other n` stands
for an arbitrary distinct database or migration error value. -/
inductive GoErr where
  | errMissingID : GoErr
  | dupKey : String → GoErr
  | other : Nat → GoErr
deriving DecidableEq, Repr

/-- The observable state of the database: whether the ledger table exists and
its rows (applied migration identifiers) in insertion order. -/
structure St where
  tableExists : Bool
  ledger : List String
deriving DecidableEq, Repr

/-- Fault oracle: the error each database operation reports when the engine
performs it (`none` = the operation succeeds).  `createErr` is the result of
the `CREATE TABLE` exec, `firstRunErr` of the unfiltered `SELECT COUNT(*)` in
`isFirstRun`, `didRunErr id` of the filtered count in `migrationDidRun`, and
`insertErr id` of the ledger `INSERT` (beyond the primary-key constraint,
which is modelled unconditionally). -/
structure Faults where
  createErr : Option GoErr
  firstRunErr : Option GoErr
  didRunErr : String → Option GoErr
  insertErr : String → Option GoErr

/-- The oracle of a healthy database: every operation succeeds. -/
def noFaults : Faults :=
  { createErr := none, firstRunErr := none,
    didRunErr := fun _ => none, insertErr := fun _ => none }

/-- Instrumentation events: the engine issued the `CREATE TABLE` statement,
invoked the init-schema function, or invoked the action of the migration at
list position `i` (whose identifier is recorded in the event). -/
inductive Event where
  | createTable : Event
  | initSchemaRun : Event
  | actionRun : Nat → String → Event
deriving DecidableEq, Repr

/-- `Migration` from src/migrate.go.  `ID` is the identifier; the `Migrate`
field is the migration's action, modelled by the error value its invocation
returns to the engine (`none` = success), since the engine observes nothing
else about it. -/
structure Migration where
  ID : String
  Migrate : Option GoErr
deriving DecidableEq, Repr

/-- `Options` from src/migrate.go: ledger table and identifier column names. -/
structure Options where
  TableName : String
  IDColumnName : String
deriving DecidableEq, Repr

/-- The `Migrate` collection struct from src/migrate.go.  The `initSchema`
field is `none` when no init-schema function was set, and `some o` when one
was set whose invocation returns `o` (`none` = success). -/
structure Migrate where
  options : Options
  migrations : List Migration
  initSchema : Option (Option GoErr)
deriving DecidableEq, Repr

/-- Result of an engine operation: the returned error (`none` = nil), the
database state afterwards, and the trace of events that happened. -/
abbrev Res := Option GoErr × St × List Event

/-- The SQL text built by `createMigrationTableIfNotExists`
(`fmt.Sprintf("CREATE TABLE %s (%s VARCHAR(255) PRIMARY KEY)", ...)`). -/
def createTableSQL (o : Options) : String :=
  "CREATE TABLE " ++ o.TableName ++ " (" ++ o.IDColumnName ++ " VARCHAR(255) PRIMARY KEY)"

/-- `Migrate.createMigrationTableIfNotExists`: if `HasTable` reports the
ledger table, return nil without touching the database; otherwise exec the
`CREATE TABLE` statement and return its error. -/
def createMigrationTableIfNotExists (f : Faults) (s : St) : Res :=
  if s.tableExists then (none, s, [])
  else
    match f.createErr with
    | some e => (some e, s, [Event.createTable])
    | none => (none, { s with tableExists := true }, [Event.createTable])

/-- `Migrate.migrationDidRun`: counts ledger rows with the given identifier
and returns `(count > 0, tx.Error)`.  On a query error the scanned count
keeps its zero initial value. -/
def migrationDidRun (f : Faults) (s : St) (id : String) : Option GoErr × Bool :=
  match f.didRunErr id with
  | some e => (some e, false)
  | none => (none, decide (id ∈ s.ledger))

/-- `Migrate.isFirstRun`: counts all ledger rows and returns `count == 0`.
The Go code ignores the query's error: `count` keeps its zero initial value
when the `Scan` fails, so a failed count reads as an empty ledger. -/
def isFirstRun (f : Faults) (s : St) : Bool :=
  match f.firstRunErr with
  | some _ => true
  | none => s.ledger.isEmpty

/-- `Migrate.insertMigration`: a single-row `INSERT` of the identifier into
the ledger.  The primary-key constraint makes the insert fail whenever the
identifier is already present; otherwise the fault oracle decides. -/
def insertMigration (f : Faults) (s : St) (id : String) : Option GoErr × St :=
  if id ∈ s.ledger then (some (GoErr.dupKey id), s)
  else
    match f.insertErr id with
    | some e => (some e, s)
    | none => (none, { s with ledger := s.ledger ++ [id] })

/-- `Migrate.runMigration` for the migration at list position `i` (the
position is instrumentation only; the Go code does not use it): reject an
empty identifier with `ErrMissingID`, propagate a `migrationDidRun` error,
skip an already-recorded migration, otherwise invoke the action and, on its
success, insert the identifier. -/
def runMigration (f : Faults) (i : Nat) (mig : Migration) (s : St) : Res :=
  if mig.ID.length = 0 then (some GoErr.errMissingID, s, [])
  else
    match migrationDidRun f s mig.ID with
    | (some e, _) => (some e, s, [])
    | (none, run) =>
      if run then (none, s, [])
      else
        match mig.Migrate with
        | some e => (some e, s, [Event.actionRun i mig.ID])
        | none =>
          match insertMigration f s mig.ID with
          | (some e, s1) => (some e, s1, [Event.actionRun i mig.ID])
          | (none, s1) => (none, s1, [Event.actionRun i mig.ID])

/-- The `for _, migration := range m.migrations` loop of `Migrate.Migrate`,
starting at list position `i`: run each migration in order, stopping at and
returning the first error. -/
def runAll (f : Faults) (l : List Migration) (i : Nat) (s : St) : Res :=
  match l with
  | [] => (none, s, [])
  | mig :: rest =>
    match runMigration f i mig s with
    | (some e, s1, tr) => (some e, s1, tr)
    | (none, s1, tr) =>
      match runAll f rest (i + 1) s1 with
      | (r, s2, tr2) => (r, s2, tr ++ tr2)

/-- The insertion loop of `Migrate.runInitSchema`: insert each identifier in
order, stopping at and returning the first error. -/
def insertAll (f : Faults) (ids : List String) (s : St) : Option GoErr × St :=
  match ids with
  | [] => (none, s)
  | id :: rest =>
    match insertMigration f s id with
    | (some e, s1) => (some e, s1)
    | (none, s1) => insertAll f rest s1

/-- `Migrate.runInitSchema`: invoke the init-schema function (outcome `o`);
on its success insert every migration identifier in input order. -/
def runInitSchema (f : Faults) (o : Option GoErr) (ids : List String) (s : St) : Res :=
  match o with
  | some e => (some e, s, [Event.initSchemaRun])
  | none =>
    match insertAll f ids s with
    | (r, s1) => (r, s1, [Event.initSchemaRun])

/-- `Migrate.Migrate`: ensure the ledger table; when an init-schema function
is set and `isFirstRun` reports an empty ledger, take the bootstrap path;
otherwise run every migration in input order. -/
def Migrate.Migrate (m : Migrate) (f : Faults) (s : St) : Res :=
  match createMigrationTableIfNotExists f s with
  | (some e, s1, tr) => (some e, s1, tr)
  | (none, s1, tr) =>
    match m.initSchema with
    | some o =>
      if isFirstRun f s1 then
        match runInitSchema f o (m.migrations.map Migration.ID) s1 with
        | (r, s2, tr2) => (r, s2, tr ++ tr2)
      else
        match runAll f m.migrations 0 s1 with
        | (r, s2, tr2) => (r, s2, tr ++ tr2)
    | none =>
      match runAll f m.migrations 0 s1 with
      | (r, s2, tr2) => (r, s2, tr ++ tr2)

/-- A fixed options value, the defaults applied by `MigrateDB`. -/
def opts0 : Options := { TableName := "_migrations", IDColumnName := "id" }

/-- Fault oracle whose only failure is the unfiltered ledger count used by
`isFirstRun`, which reports the database error `GoErr.other 7`. -/
def firstRunFault : Faults := { noFaults with firstRunErr := some (GoErr.other 7) }

/-! ### Basic lemmas about the ledger operations -/

theorem insertMigration_tableExists (f : Faults) (s : St) (id : String) :
    ((insertMigration f s id).2).tableExists = s.tableExists := by
  unfold insertMigration
  split
  · rfl
  · split <;> rfl

theorem insertMigration_mem (f : Faults) (i : String) (s : St) (hmem : i ∈ s.ledger) :
    insertMigration f s i = (some (GoErr.dupKey i), s) := by
  unfold insertMigration
  rw [if_pos hmem]

theorem insertMigration_ok (f : Faults) (i : String) (s : St)
    (hmem : i ∉ s.ledger) (hf : f.insertErr i = none) :
    insertMigration f s i = (none, { s with ledger := s.ledger ++ [i] }) := by
  unfold insertMigration
  rw [if_neg hmem, hf]

theorem insertMigration_fault (f : Faults) (i : String) (s : St) (e : GoErr)
    (hmem : i ∉ s.ledger) (hf : f.insertErr i = some e) :
    insertMigration f s i = (some e, s) := by
  unfold insertMigration
  rw [if_neg hmem, hf]

theorem insertMigration_ledger_cases (f : Faults) (s : St) (id : String) :
    ((insertMigration f s id).2).ledger = s.ledger ∨
    ((insertMigration f s id).2).ledger = s.ledger ++ [id] := by
  unfold insertMigration
  split
  · exact Or.inl rfl
  · split
    · exact Or.inl rfl
    · exact Or.inr rfl

theorem insertMigration_ok_mem (f : Faults) (i : String) (s s1 : St)
    (h : insertMigration f s i = (none, s1)) : i ∈ s1.ledger := by
  unfold insertMigration at h
  split at h
  · cases h
  · split at h
    · cases h
    · cases h
      simp

theorem insertAll_tableExists (f : Faults) (ids : List String) (s : St) :
    ((insertAll f ids s).2).tableExists = s.tableExists := by
  induction ids generalizing s with
  | nil => rfl
  | cons id rest ih =>
    have hte := insertMigration_tableExists f s id
    rcases h : insertMigration f s id with ⟨r, s1⟩
    rw [h] at hte
    cases r with
    | some e => simp [insertAll, h]; exact hte
    | none => simp only [insertAll, h]; rw [ih s1]; exact hte

theorem insertMigration_cases (f : Faults) (s : St) (id : String) (r : Option GoErr) (s1 : St)
    (h : insertMigration f s id = (r, s1)) :
    s1.tableExists = s.tableExists ∧ (s1.ledger = s.ledger ∨ s1.ledger = s.ledger ++ [id]) := by
  unfold insertMigration at h
  split at h
  · cases h; exact ⟨rfl, Or.inl rfl⟩
  · split at h
    · cases h; exact ⟨rfl, Or.inl rfl⟩
    · cases h; exact ⟨rfl, Or.inr rfl⟩

theorem insertAll_ledger_sub (f : Faults) (ids : List String) (s : St) :
    ∃ t, ((insertAll f ids s).2).ledger = s.ledger ++ t := by
  induction ids generalizing s with
  | nil => exact ⟨[], by simp [insertAll]⟩
  | cons id rest ih =>
    rcases h : insertMigration f s id with ⟨r, s1⟩
    have hcs := (insertMigration_cases f s id r s1 h).2
    cases r with
    | some e =>
      simp only [insertAll, h]
      rcases hcs with hc | hc
      · exact ⟨[], by simp [hc]⟩
      · exact ⟨[id], by simp [hc]⟩
    | none =>
      simp only [insertAll, h]
      obtain ⟨t, ht⟩ := ih s1
      rcases hcs with hc | hc
      · exact ⟨t, by rw [ht, hc]⟩
      · exact ⟨id :: t, by rw [ht, hc]; simp⟩

theorem insertAll_ok (f : Faults) (ids : List String) (s : St)
    (hnd : ids.Nodup) (hfresh : ∀ id ∈ ids, id ∉ s.ledger)
    (hf : ∀ id ∈ ids, f.insertErr id = none) :
    insertAll f ids s = (none, { s with ledger := s.ledger ++ ids }) := by
  induction ids generalizing s with
  | nil => simp [insertAll]
  | cons id rest ih =>
    have h1 : id ∉ s.ledger := hfresh id (by simp)
    have h2 : f.insertErr id = none := hf id (by simp)
    simp only [insertAll, insertMigration_ok f id s h1 h2]
    rw [ih { s with ledger := s.ledger ++ [id] } (List.Nodup.of_cons hnd)]
    · simp
    · intro x hx
      simp only [List.mem_append, List.mem_singleton]
      rintro (hxs | rfl)
      · exact hfresh x (by simp [hx]) hxs
      · exact (List.nodup_cons.mp hnd).1 hx
    · intro x hx
      exact hf x (by simp [hx])

theorem insertAll_cons_mem (f : Faults) (i : String) (rest : List String) (s : St)
    (hmem : i ∈ s.ledger) :
    insertAll f (i :: rest) s = (some (GoErr.dupKey i), s) := by
  simp [insertAll, insertMigration_mem f i s hmem]

theorem insertAll_ok_mem (f : Faults) (ids : List String) (s s1 : St)
    (h : insertAll f ids s = (none, s1)) : ∀ id ∈ ids, id ∈ s1.ledger := by
  induction ids generalizing s with
  | nil => simp
  | cons id rest ih =>
    intro x hx
    rcases hstep : insertMigration f s id with ⟨r, s2⟩
    rw [insertAll, hstep] at h
    cases r with
    | some e => cases h
    | none =>
      simp only at h
      rcases List.mem_cons.mp hx with rfl | hx2
      · have hx1 : x ∈ s2.ledger := insertMigration_ok_mem f x s s2 hstep
        obtain ⟨t, ht⟩ := insertAll_ledger_sub f rest s2
        rw [h] at ht
        rw [ht]
        exact List.mem_append_left t hx1
      · exact ih s2 h x hx2

theorem insertAll_fault_at (f : Faults) (pre post : List String) (x : String) (e : GoErr)
    (s : St) (hndp : pre.Nodup) (hfresh : ∀ id ∈ pre, id ∉ s.ledger)
    (hfp : ∀ id ∈ pre, f.insertErr id = none)
    (hxs : x ∉ s.ledger) (hxp : x ∉ pre) (hxe : f.insertErr x = some e) :
    insertAll f (pre ++ x :: post) s = (some e, { s with ledger := s.ledger ++ pre }) := by
  induction pre generalizing s with
  | nil =>
    simp only [List.nil_append, insertAll, insertMigration_fault f x s e hxs hxe]
    simp
  | cons id rest ih =>
    have h1 : id ∉ s.ledger := hfresh id (by simp)
    have h2 : f.insertErr id = none := hfp id (by simp)
    have step : insertAll f ((id :: rest) ++ x :: post) s
        = insertAll f (rest ++ x :: post) { s with ledger := s.ledger ++ [id] } := by
      simp only [List.cons_append, insertAll, insertMigration_ok f id s h1 h2]
      rfl
    rw [step, ih { s with ledger := s.ledger ++ [id] } (List.Nodup.of_cons hndp)]
    · simp
    · intro y hy
      simp only [List.mem_append, List.mem_singleton]
      rintro (hys | rfl)
      · exact hfresh y (by simp [hy]) hys
      · exact (List.nodup_cons.mp hndp).1 hy
    · intro y hy
      exact hfp y (by simp [hy])
    · simp only [List.mem_append, List.mem_singleton]
      rintro (hxs2 | rfl)
      · exact hxs hxs2
      · exact hxp (by simp)
    · intro hxr
      exact hxp (by simp [hxr])

/-! ### Lemmas about `runMigration` -/

theorem runMigration_emptyID (f : Faults) (i : Nat) (mig : Migration) (s : St)
    (hid : mig.ID.length = 0) :
    runMigration f i mig s = (some GoErr.errMissingID, s, []) := by
  unfold runMigration
  rw [if_pos hid]

theorem runMigration_didRunFault (f : Faults) (i : Nat) (mig : Migration) (s : St) (e : GoErr)
    (hid : mig.ID.length ≠ 0) (hdr : f.didRunErr mig.ID = some e) :
    runMigration f i mig s = (some e, s, []) := by
  unfold runMigration migrationDidRun
  rw [if_neg hid, hdr]

theorem runMigration_skip (f : Faults) (i : Nat) (mig : Migration) (s : St)
    (hid : mig.ID.length ≠ 0) (hdr : f.didRunErr mig.ID = none) (hmem : mig.ID ∈ s.ledger) :
    runMigration f i mig s = (none, s, []) := by
  unfold runMigration migrationDidRun
  rw [if_neg hid, hdr]
  simp [hmem]

theorem runMigration_actionFault (f : Faults) (i : Nat) (mig : Migration) (s : St) (e : GoErr)
    (hid : mig.ID.length ≠ 0) (hdr : f.didRunErr mig.ID = none) (hmem : mig.ID ∉ s.ledger)
    (hact : mig.Migrate = some e) :
    runMigration f i mig s = (some e, s, [Event.actionRun i mig.ID]) := by
  unfold runMigration migrationDidRun
  rw [if_neg hid, hdr]
  simp [hmem, hact]

theorem runMigration_insertFault (f : Faults) (i : Nat) (mig : Migration) (s : St) (e : GoErr)
    (hid : mig.ID.length ≠ 0) (hdr : f.didRunErr mig.ID = none) (hmem : mig.ID ∉ s.ledger)
    (hact : mig.Migrate = none) (hins : f.insertErr mig.ID = some e) :
    runMigration f i mig s = (some e, s, [Event.actionRun i mig.ID]) := by
  unfold runMigration migrationDidRun
  rw [if_neg hid, hdr]
  simp [hmem, hact, insertMigration_fault f mig.ID s e hmem hins]

theorem runMigration_invoke_ok (f : Faults) (i : Nat) (mig : Migration) (s : St)
    (hid : mig.ID.length ≠ 0) (hdr : f.didRunErr mig.ID = none) (hmem : mig.ID ∉ s.ledger)
    (hact : mig.Migrate = none) (hins : f.insertErr mig.ID = none) :
    runMigration f i mig s
      = (none, { s with ledger := s.ledger ++ [mig.ID] }, [Event.actionRun i mig.ID]) := by
  unfold runMigration migrationDidRun
  rw [if_neg hid, hdr]
  simp [hmem, hact, insertMigration_ok f mig.ID s hmem hins]

/-- Every outcome of `runMigration` preserves the table flag, at most appends
the migration's own identifier to the ledger, emits only the event
`actionRun i mig.ID`, and emits it only when the identifier was not yet
recorded. -/
theorem runMigration_cases (f : Faults) (i : Nat) (mig : Migration) (s : St) (r : Option GoErr)
    (s1 : St) (tr : List Event) (h : runMigration f i mig s = (r, s1, tr)) :
    s1.tableExists = s.tableExists ∧
    (s1.ledger = s.ledger ∨ s1.ledger = s.ledger ++ [mig.ID]) ∧
    (∀ ev ∈ tr, ev = Event.actionRun i mig.ID) ∧
    (tr ≠ [] → mig.ID ∉ s.ledger) := by
  by_cases hid : mig.ID.length = 0
  · rw [runMigration_emptyID f i mig s hid] at h
    cases h
    exact ⟨rfl, Or.inl rfl, by simp, fun hne => absurd rfl hne⟩
  · cases hdr : f.didRunErr mig.ID with
    | some e =>
      rw [runMigration_didRunFault f i mig s e hid hdr] at h
      cases h
      exact ⟨rfl, Or.inl rfl, by simp, fun hne => absurd rfl hne⟩
    | none =>
      by_cases hmem : mig.ID ∈ s.ledger
      · rw [runMigration_skip f i mig s hid hdr hmem] at h
        cases h
        exact ⟨rfl, Or.inl rfl, by simp, fun hne => absurd rfl hne⟩
      · cases hact : mig.Migrate with
        | some e =>
          rw [runMigration_actionFault f i mig s e hid hdr hmem hact] at h
          cases h
          exact ⟨rfl, Or.inl rfl, by simp, fun _ => hmem⟩
        | none =>
          cases hins : f.insertErr mig.ID with
          | some e =>
            rw [runMigration_insertFault f i mig s e hid hdr hmem hact hins] at h
            cases h
            exact ⟨rfl, Or.inl rfl, by simp, fun _ => hmem⟩
          | none =>
            rw [runMigration_invoke_ok f i mig s hid hdr hmem hact hins] at h
            cases h
            exact ⟨rfl, Or.inr rfl, by simp, fun _ => hmem⟩

/-- A successful `runMigration` either skipped an already-recorded migration
(no state change, no event) or invoked the action and recorded the
identifier. -/
theorem runMigration_ok_cases (f : Faults) (i : Nat) (mig : Migration) (s : St)
    (s1 : St) (tr : List Event) (h : runMigration f i mig s = (none, s1, tr)) :
    (mig.ID ∈ s.ledger ∧ s1 = s ∧ tr = []) ∨
    (mig.ID ∉ s.ledger ∧ s1 = { s with ledger := s.ledger ++ [mig.ID] }
      ∧ tr = [Event.actionRun i mig.ID] ∧ mig.Migrate = none
      ∧ f.insertErr mig.ID = none ∧ mig.ID.length ≠ 0 ∧ f.didRunErr mig.ID = none) := by
  by_cases hid : mig.ID.length = 0
  · rw [runMigration_emptyID f i mig s hid] at h
    cases h
  · cases hdr : f.didRunErr mig.ID with
    | some e =>
      rw [runMigration_didRunFault f i mig s e hid hdr] at h
      cases h
    | none =>
      by_cases hmem : mig.ID ∈ s.ledger
      · rw [runMigration_skip f i mig s hid hdr hmem] at h
        cases h
        exact Or.inl ⟨hmem, rfl, rfl⟩
      · cases hact : mig.Migrate with
        | some e =>
          rw [runMigration_actionFault f i mig s e hid hdr hmem hact] at h
          cases h
        | none =>
          cases hins : f.insertErr mig.ID with
          | some e =>
            rw [runMigration_insertFault f i mig s e hid hdr hmem hact hins] at h
            cases h
          | none =>
            rw [runMigration_invoke_ok f i mig s hid hdr hmem hact hins] at h
            cases h
            exact Or.inr ⟨hmem, rfl, rfl, rfl, rfl, hid, rfl⟩

/-- A successful `runMigration` leaves the migration's identifier recorded. -/
theorem runMigration_ok_mem (f : Faults) (i : Nat) (mig : Migration) (s : St)
    (s1 : St) (tr : List Event) (h : runMigration f i mig s = (none, s1, tr)) :
    mig.ID ∈ s1.ledger := by
  rcases runMigration_ok_cases f i mig s s1 tr h with ⟨hm, rfl, _⟩ | ⟨_, rfl, _⟩
  · exact hm
  · simp

/-! ### Lemmas about the migration loop `runAll` -/

theorem runAll_nil (f : Faults) (i : Nat) (s : St) : runAll f [] i s = (none, s, []) := rfl

theorem runAll_cons_err (f : Faults) (i : Nat) (mig : Migration) (rest : List Migration)
    (s s1 : St) (e : GoErr) (tr : List Event)
    (h : runMigration f i mig s = (some e, s1, tr)) :
    runAll f (mig :: rest) i s = (some e, s1, tr) := by
  simp only [runAll, h]

theorem runAll_cons_ok (f : Faults) (i : Nat) (mig : Migration) (rest : List Migration)
    (s s1 s2 : St) (r2 : Option GoErr) (tr tr2 : List Event)
    (h : runMigration f i mig s = (none, s1, tr))
    (h2 : runAll f rest (i + 1) s1 = (r2, s2, tr2)) :
    runAll f (mig :: rest) i s = (r2, s2, tr ++ tr2) := by
  simp only [runAll, h, h2]

/-- Every run of the loop preserves the table flag, only appends to the
ledger, and appends only identifiers drawn from the migration list. -/
theorem runAll_struct (f : Faults) (l : List Migration) (i : Nat) (s s1 : St)
    (r : Option GoErr) (tr : List Event) (h : runAll f l i s = (r, s1, tr)) :
    s1.tableExists = s.tableExists ∧ (∃ t, s1.ledger = s.ledger ++ t) ∧
    (∀ x ∈ s1.ledger, x ∈ s.ledger ∨ x ∈ l.map Migration.ID) := by
  induction l generalizing i s r s1 tr with
  | nil =>
    rw [runAll_nil] at h
    cases h
    exact ⟨rfl, ⟨[], by simp⟩, fun x hx => Or.inl hx⟩
  | cons mig rest ih =>
    rcases hstep : runMigration f i mig s with ⟨r0, sA, trA⟩
    have hc := runMigration_cases f i mig s r0 sA trA hstep
    have hAmem : ∀ x ∈ sA.ledger, x ∈ s.ledger ∨ x = mig.ID := by
      intro x hx
      rcases hc.2.1 with hl | hl <;> rw [hl] at hx
      · exact Or.inl hx
      · rcases List.mem_append.mp hx with hx1 | hx1
        · exact Or.inl hx1
        · exact Or.inr (List.mem_singleton.mp hx1)
    have hAext : ∃ t, sA.ledger = s.ledger ++ t := by
      rcases hc.2.1 with hl | hl
      · exact ⟨[], by simp [hl]⟩
      · exact ⟨[mig.ID], hl⟩
    cases r0 with
    | some e =>
      rw [runAll_cons_err f i mig rest s sA e trA hstep] at h
      cases h
      refine ⟨hc.1, hAext, fun x hx => ?_⟩
      rcases hAmem x hx with hx1 | hx1
      · exact Or.inl hx1
      · exact Or.inr (by simp [hx1])
    | none =>
      rcases h2 : runAll f rest (i + 1) sA with ⟨r2, s2, tr2⟩
      rw [runAll_cons_ok f i mig rest s sA s2 r2 trA tr2 hstep h2] at h
      cases h
      obtain ⟨ht2, ⟨t2, hext2⟩, hsrc2⟩ := ih (i + 1) sA s1 r tr2 h2
      refine ⟨ht2.trans hc.1, ?_, ?_⟩
      · obtain ⟨t0, hext0⟩ := hAext
        exact ⟨t0 ++ t2, by rw [hext2, hext0, List.append_assoc]⟩
      · intro x hx
        rcases hsrc2 x hx with hx1 | hx1
        · rcases hAmem x hx1 with hx2 | hx2
          · exact Or.inl hx2
          · exact Or.inr (by simp [hx2])
        · exact Or.inr (by simp [hx1])

/-- After a successful run of the loop, every migration of the list has its
identifier recorded in the ledger. -/
theorem runAll_ok_mem (f : Faults) (l : List Migration) (i : Nat) (s s1 : St)
    (tr : List Event) (h : runAll f l i s = (none, s1, tr)) :
    ∀ mig ∈ l, mig.ID ∈ s1.ledger := by
  induction l generalizing i s s1 tr with
  | nil => simp
  | cons mig rest ih =>
    rcases hstep : runMigration f i mig s with ⟨r0, sA, trA⟩
    cases r0 with
    | some e =>
      rw [runAll_cons_err f i mig rest s sA e trA hstep] at h
      simp at h
    | none =>
      rcases h2 : runAll f rest (i + 1) sA with ⟨r2, s2, tr2⟩
      rw [runAll_cons_ok f i mig rest s sA s2 r2 trA tr2 hstep h2] at h
      cases h
      intro x hx
      rcases List.mem_cons.mp hx with rfl | hx2
      · have h1 : x.ID ∈ sA.ledger := runMigration_ok_mem f i x s sA trA hstep
        obtain ⟨t, htl⟩ := (runAll_struct f rest (i + 1) sA s1 none tr2 h2).2.1
        rw [htl]
        exact List.mem_append_left t h1
      · exact ih (i + 1) sA s1 tr2 h2 x hx2

/-- When every migration of the list is already recorded, the loop leaves the
state untouched and emits no event (it may still fail, e.g. on an empty
identifier or a read fault). -/
theorem runAll_inert (f : Faults) (l : List Migration) (i : Nat) (s : St)
    (hmem : ∀ mig ∈ l, mig.ID ∈ s.ledger) :
    ∃ r, runAll f l i s = (r, s, []) := by
  induction l generalizing i s with
  | nil => exact ⟨none, rfl⟩
  | cons mig rest ih =>
    have hm : mig.ID ∈ s.ledger := hmem mig (by simp)
    by_cases hid : mig.ID.length = 0
    · exact ⟨some GoErr.errMissingID,
        runAll_cons_err f i mig rest s s GoErr.errMissingID []
          (runMigration_emptyID f i mig s hid)⟩
    · cases hdr : f.didRunErr mig.ID with
      | some e =>
        exact ⟨some e, runAll_cons_err f i mig rest s s e []
          (runMigration_didRunFault f i mig s e hid hdr)⟩
      | none =>
        obtain ⟨r, hr⟩ := ih (i + 1) s (fun m hm2 => hmem m (by simp [hm2]))
        exact ⟨r, runAll_cons_ok f i mig rest s s s r [] []
          (runMigration_skip f i mig s hid hdr hm) hr⟩

/-- Source of every action-invocation event of a loop run: the event's
position lies in the run's range, its identifier is the identifier of the
migration at that position, and that identifier was not yet recorded when the
loop started. -/
theorem runAll_actionRun_src (f : Faults) (l : List Migration) (i : Nat) (s s1 : St)
    (r : Option GoErr) (tr : List Event) (k : Nat) (x : String)
    (h : runAll f l i s = (r, s1, tr)) (hev : Event.actionRun k x ∈ tr) :
    i ≤ k ∧ ∃ hk : k - i < l.length, x = (l.get ⟨k - i, hk⟩).ID ∧ x ∉ s.ledger := by
  induction l generalizing i s r s1 tr with
  | nil =>
    rw [runAll_nil] at h
    cases h
    simp at hev
  | cons mig rest ih =>
    rcases hstep : runMigration f i mig s with ⟨r0, sA, trA⟩
    have hc := runMigration_cases f i mig s r0 sA trA hstep
    have hhead : Event.actionRun k x ∈ trA →
        i ≤ k ∧ ∃ hk : k - i < (mig :: rest).length,
          x = ((mig :: rest).get ⟨k - i, hk⟩).ID ∧ x ∉ s.ledger := by
      intro hin
      have hev2 := hc.2.2.1 _ hin
      have hne : trA ≠ [] := by
        intro hnil
        rw [hnil] at hin
        simp at hin
      have hnm := hc.2.2.2 hne
      cases hev2
      refine ⟨le_refl k, ?_⟩
      have hki : k - k = 0 := Nat.sub_self k
      exact ⟨by simp, by simp [hki], hnm⟩
    cases r0 with
    | some e =>
      rw [runAll_cons_err f i mig rest s sA e trA hstep] at h
      cases h
      exact hhead hev
    | none =>
      rcases h2 : runAll f rest (i + 1) sA with ⟨r2, s2, tr2⟩
      rw [runAll_cons_ok f i mig rest s sA s2 r2 trA tr2 hstep h2] at h
      cases h
      rcases List.mem_append.mp hev with hin | hin
      · exact hhead hin
      · obtain ⟨hik, hk2, hx2, hnm2⟩ := ih (i + 1) sA s1 r tr2 h2 hin
        refine ⟨Nat.le_of_succ_le hik, ?_⟩
        have hki : k - i = (k - (i + 1)) + 1 := by omega
        have hklen : k - i < (mig :: rest).length := by
          simp only [List.length_cons]
          omega
        refine ⟨hklen, ?_, ?_⟩
        · rw [hx2]
          congr 1
          rw [List.get_of_eq rfl]
          have : (mig :: rest).get ⟨k - i, hklen⟩ = rest.get ⟨k - (i + 1), hk2⟩ := by
            have h3 : (mig :: rest).get ⟨(k - (i + 1)) + 1, by simp; omega⟩
                = rest.get ⟨k - (i + 1), hk2⟩ := rfl
            rw [← h3]
            congr 1
            exact Fin.ext (by simp [hki])
          rw [this]
        · intro hxs
          apply hnm2
          rcases hc.2.1 with hl | hl <;> rw [hl]
          · exact hxs
          · exact List.mem_append_left _ hxs

/-- Appending migration lists: a failing front segment decides the run. -/
theorem runAll_append_err (f : Faults) (l1 l2 : List Migration) (i : Nat) (s s1 : St)
    (e : GoErr) (tr1 : List Event) (h1 : runAll f l1 i s = (some e, s1, tr1)) :
    runAll f (l1 ++ l2) i s = (some e, s1, tr1) := by
  induction l1 generalizing i s s1 tr1 with
  | nil => rw [runAll_nil] at h1; cases h1
  | cons mig rest ih =>
    rcases hstep : runMigration f i mig s with ⟨r0, sA, trA⟩
    cases r0 with
    | some e0 =>
      rw [runAll_cons_err f i mig rest s sA e0 trA hstep] at h1
      cases h1
      exact runAll_cons_err f i mig (rest ++ l2) s s1 e tr1 hstep
    | none =>
      rcases h2 : runAll f rest (i + 1) sA with ⟨r2, s2, tr2⟩
      rw [runAll_cons_ok f i mig rest s sA s2 r2 trA tr2 hstep h2] at h1
      cases h1
      exact runAll_cons_ok f i mig (rest ++ l2) s sA s1 (some e) trA tr2 hstep (ih (i + 1) sA s1 tr2 h2)

/-- Appending migration lists: a successful front segment hands the state to
the back segment, which continues at the position after the front. -/
theorem runAll_append_ok (f : Faults) (l1 l2 : List Migration) (i : Nat) (s s1 s2 : St)
    (r2 : Option GoErr) (tr1 tr2 : List Event)
    (h1 : runAll f l1 i s = (none, s1, tr1))
    (h2 : runAll f l2 (i + l1.length) s1 = (r2, s2, tr2)) :
    runAll f (l1 ++ l2) i s = (r2, s2, tr1 ++ tr2) := by
  induction l1 generalizing i s s1 tr1 with
  | nil =>
    rw [runAll_nil] at h1
    cases h1
    simpa using h2
  | cons mig rest ih =>
    rcases hstep : runMigration f i mig s with ⟨r0, sA, trA⟩
    cases r0 with
    | some e0 =>
      rw [runAll_cons_err f i mig rest s sA e0 trA hstep] at h1
      simp at h1
    | none =>
      rcases hmid : runAll f rest (i + 1) sA with ⟨rm, sm, trm⟩
      cases rm with
      | some e0 =>
        rw [runAll_cons_ok f i mig rest s sA sm (some e0) trA trm hstep hmid] at h1
        simp at h1
      | none =>
        rw [runAll_cons_ok f i mig rest s sA sm none trA trm hstep hmid] at h1
        cases h1
        have hlen : i + (mig :: rest).length = (i + 1) + rest.length := by
          simp only [List.length_cons]
          omega
        rw [hlen] at h2
        have hmain := ih (i + 1) sA s1 trm hmid h2
        rw [List.append_assoc]
        exact runAll_cons_ok f i mig (rest ++ l2) s sA s2 r2 trA (trm ++ tr2) hstep hmain

/-! ### Lemmas about table creation, first-run detection and the bootstrap -/

theorem create_exists (f : Faults) (s : St) (h : s.tableExists = true) :
    createMigrationTableIfNotExists f s = (none, s, []) := by
  unfold createMigrationTableIfNotExists
  rw [if_pos h]

theorem create_new (f : Faults) (s : St) (h : s.tableExists = false)
    (hc : f.createErr = none) :
    createMigrationTableIfNotExists f s
      = (none, { s with tableExists := true }, [Event.createTable]) := by
  unfold createMigrationTableIfNotExists
  rw [if_neg (by simp [h]), hc]

theorem create_fault (f : Faults) (s : St) (e : GoErr) (h : s.tableExists = false)
    (hc : f.createErr = some e) :
    createMigrationTableIfNotExists f s = (some e, s, [Event.createTable]) := by
  unfold createMigrationTableIfNotExists
  rw [if_neg (by simp [h]), hc]

theorem create_ok_cases (f : Faults) (s s0 : St) (tr0 : List Event)
    (h : createMigrationTableIfNotExists f s = (none, s0, tr0)) :
    s0.tableExists = true ∧ s0.ledger = s.ledger := by
  cases htbl : s.tableExists with
  | true =>
    rw [create_exists f s htbl] at h
    cases h
    exact ⟨htbl, rfl⟩
  | false =>
    cases hc : f.createErr with
    | some e =>
      rw [create_fault f s e htbl hc] at h
      simp at h
    | none =>
      rw [create_new f s htbl hc] at h
      cases h
      exact ⟨rfl, rfl⟩

theorem isFirstRun_empty (f : Faults) (s : St) (h : s.ledger = []) :
    isFirstRun f s = true := by
  cases hf : f.firstRunErr <;> simp [isFirstRun, hf, h]

theorem isFirstRun_healthy (f : Faults) (s : St) (hf : f.firstRunErr = none)
    (h : s.ledger ≠ []) : isFirstRun f s = false := by
  simp [isFirstRun, hf, h]

theorem runInitSchema_fail (f : Faults) (ids : List String) (s : St) (e : GoErr) :
    runInitSchema f (some e) ids s = (some e, s, [Event.initSchemaRun]) := rfl

theorem runInitSchema_ok (f : Faults) (ids : List String) (s s1 : St) (r : Option GoErr)
    (h : insertAll f ids s = (r, s1)) :
    runInitSchema f none ids s = (r, s1, [Event.initSchemaRun]) := by
  simp only [runInitSchema, h]

theorem runInitSchema_cases (f : Faults) (o : Option GoErr) (ids : List String)
    (s s1 : St) (r : Option GoErr) (tr : List Event)
    (h : runInitSchema f o ids s = (r, s1, tr)) :
    tr = [Event.initSchemaRun] ∧ s1.tableExists = s.tableExists ∧
    ∃ t, s1.ledger = s.ledger ++ t := by
  cases o with
  | some e =>
    rw [runInitSchema_fail] at h
    cases h
    exact ⟨rfl, rfl, ⟨[], by simp⟩⟩
  | none =>
    rcases hia : insertAll f ids s with ⟨ri, si⟩
    rw [runInitSchema_ok f ids s si ri hia] at h
    cases h
    have h1 := insertAll_tableExists f ids s
    have h2 := insertAll_ledger_sub f ids s
    rw [hia] at h1 h2
    exact ⟨rfl, h1, h2⟩

theorem runInitSchema_ok_cases (f : Faults) (o : Option GoErr) (ids : List String)
    (s s1 : St) (tr : List Event) (h : runInitSchema f o ids s = (none, s1, tr)) :
    o = none ∧ insertAll f ids s = (none, s1) ∧ tr = [Event.initSchemaRun] := by
  cases o with
  | some e =>
    rw [runInitSchema_fail] at h
    simp at h
  | none =>
    rcases hia : insertAll f ids s with ⟨ri, si⟩
    rw [runInitSchema_ok f ids s si ri hia] at h
    cases h
    exact ⟨rfl, rfl, rfl⟩

/-! ### Lemmas about `Migrate.Migrate` -/

theorem Migrate_createErr (m : Migrate) (f : Faults) (s s0 : St) (e : GoErr)
    (tr0 : List Event) (hcr : createMigrationTableIfNotExists f s = (some e, s0, tr0)) :
    m.Migrate f s = (some e, s0, tr0) := by
  unfold Migrate.Migrate
  rw [hcr]

/-- After a successful table-creation step, the engine either takes the
bootstrap path or the incremental path, prefixing the creation trace. -/
theorem Migrate_step (m : Migrate) (f : Faults) (s s0 : St) (tr0 : List Event)
    (hcr : createMigrationTableIfNotExists f s = (none, s0, tr0)) :
    ((m.initSchema = none ∨ isFirstRun f s0 = false) →
      ∀ r s2 tr2, runAll f m.migrations 0 s0 = (r, s2, tr2) →
        m.Migrate f s = (r, s2, tr0 ++ tr2)) ∧
    (∀ o, m.initSchema = some o → isFirstRun f s0 = true →
      ∀ r s2 tr2, runInitSchema f o (m.migrations.map Migration.ID) s0 = (r, s2, tr2) →
        m.Migrate f s = (r, s2, tr0 ++ tr2)) := by
  constructor
  · intro hpath r s2 tr2 hra
    unfold Migrate.Migrate
    rcases hpath with hp | hp
    · simp [hcr, hp, hra]
    · cases hini : m.initSchema with
      | none => simp [hcr, hini, hra]
      | some o => simp [hcr, hini, hp, hra]
  · intro o hini hfr r s2 tr2 hri
    unfold Migrate.Migrate
    simp [hcr, hini, hfr, hri]

/-- Incremental path from an existing table: the run is exactly the loop. -/
theorem Migrate_inc (m : Migrate) (f : Faults) (s : St) (htbl : s.tableExists = true)
    (hpath : m.initSchema = none ∨ isFirstRun f s = false) :
    m.Migrate f s = runAll f m.migrations 0 s := by
  rcases hra : runAll f m.migrations 0 s with ⟨r, s2, tr2⟩
  have := (Migrate_step m f s s [] (create_exists f s htbl)).1 hpath r s2 tr2 hra
  simpa using this

/-- Bootstrap path from an existing table: the run is exactly `runInitSchema`. -/
theorem Migrate_boot (m : Migrate) (f : Faults) (s : St) (o : Option GoErr)
    (htbl : s.tableExists = true) (hini : m.initSchema = some o)
    (hfr : isFirstRun f s = true) :
    m.Migrate f s = runInitSchema f o (m.migrations.map Migration.ID) s := by
  rcases hri : runInitSchema f o (m.migrations.map Migration.ID) s with ⟨r, s2, tr2⟩
  have := (Migrate_step m f s s [] (create_exists f s htbl)).2 o hini hfr r s2 tr2 hri
  simpa using this

/-- A successful engine run leaves the ledger table existing, every listed
migration's identifier recorded, and the initial ledger as a prefix. -/
theorem Migrate_ok_mem (m : Migrate) (f : Faults) (s s1 : St) (tr : List Event)
    (h : m.Migrate f s = (none, s1, tr)) :
    s1.tableExists = true ∧ (∀ mig ∈ m.migrations, mig.ID ∈ s1.ledger) ∧
    ∃ t, s1.ledger = s.ledger ++ t := by
  rcases hcr : createMigrationTableIfNotExists f s with ⟨rc, s0, tr0⟩
  cases rc with
  | some e =>
    rw [Migrate_createErr m f s s0 e tr0 hcr] at h
    simp at h
  | none =>
    obtain ⟨ht0, hl0⟩ := create_ok_cases f s s0 tr0 hcr
    have hstep := Migrate_step m f s s0 tr0 hcr
    by_cases hboot : ∃ o, m.initSchema = some o ∧ isFirstRun f s0 = true
    · obtain ⟨o, hini, hfr⟩ := hboot
      rcases hri : runInitSchema f o (m.migrations.map Migration.ID) s0 with ⟨ri, si, tri⟩
      have hM := hstep.2 o hini hfr ri si tri hri
      rw [hM] at h
      cases h
      obtain ⟨ho, hia, htr⟩ := runInitSchema_ok_cases f o _ s0 s1 tri hri
      have h1 := insertAll_tableExists f (m.migrations.map Migration.ID) s0
      have h2 := insertAll_ledger_sub f (m.migrations.map Migration.ID) s0
      rw [hia] at h1 h2
      refine ⟨h1.trans ht0, ?_, ?_⟩
      · intro mig hmig
        exact insertAll_ok_mem f _ s0 s1 hia mig.ID (List.mem_map_of_mem Migration.ID hmig)
      · obtain ⟨t, ht⟩ := h2
        exact ⟨t, by rw [ht, hl0]⟩
    · have hpath : m.initSchema = none ∨ isFirstRun f s0 = false := by
        cases hini : m.initSchema with
        | none => exact Or.inl rfl
        | some o =>
          refine Or.inr ?_
          by_contra hfr
          exact hboot ⟨o, hini, by simpa using hfr⟩
      rcases hra : runAll f m.migrations 0 s0 with ⟨ra, sa, tra⟩
      have hM := hstep.1 hpath ra sa tra hra
      rw [hM] at h
      cases h
      obtain ⟨ht1, ⟨t, htl⟩, _⟩ := runAll_struct f m.migrations 0 s0 s1 none tra hra
      refine ⟨ht1.trans ht0, ?_, ⟨t, by rw [htl, hl0]⟩⟩
      exact runAll_ok_mem f m.migrations 0 s0 s1 tra hra

/-- A run started with the table existing and every listed identifier already
recorded changes nothing in the ledger and invokes no migration action. -/
theorem Migrate_inert (m : Migrate) (f : Faults) (s : St)
    (htbl : s.tableExists = true) (hmem : ∀ mig ∈ m.migrations, mig.ID ∈ s.ledger) :
    ((m.Migrate f s).2.1).ledger = s.ledger ∧
    ∀ k x, Event.actionRun k x ∉ (m.Migrate f s).2.2 := by
  cases hini : m.initSchema with
  | none =>
    rw [Migrate_inc m f s htbl (Or.inl hini)]
    obtain ⟨r, hra⟩ := runAll_inert f m.migrations 0 s hmem
    rw [hra]
    simp
  | some o =>
    by_cases hfr : isFirstRun f s = true
    · rw [Migrate_boot m f s o htbl hini hfr]
      cases o with
      | some e =>
        rw [runInitSchema_fail]
        simp
      | none =>
        cases hmigs : m.migrations with
        | nil =>
          simp [runInitSchema, insertAll]
        | cons mig rest =>
          have hm0 : mig.ID ∈ s.ledger := hmem mig (by simp [hmigs])
          have hia : insertAll f ((mig :: rest).map Migration.ID) s
              = (some (GoErr.dupKey mig.ID), s) := by
            simp only [List.map_cons]
            exact insertAll_cons_mem f mig.ID (rest.map Migration.ID) s hm0
          rw [runInitSchema_ok f ((mig :: rest).map Migration.ID) s s
            (some (GoErr.dupKey mig.ID)) hia]
          simp
    · rw [Migrate_inc m f s htbl (Or.inr (by simpa using hfr))]
      obtain ⟨r, hra⟩ := runAll_inert f m.migrations 0 s hmem
      rw [hra]
      simp

/-! ### The claims -/

/-- C1: Idempotence of the engine run: for every migration collection and
database state, if a first `Migrate()` run succeeds (final state `s1`), a
second run in succession — under any fault oracle — leaves the ledger
contents unchanged (`s1.ledger`) and invokes the action of no migration whose
identifier is recorded in the ledger at the start of the second run. -/
theorem C1_idempotent (m : Migrate) (f f2 : Faults) (s s1 : St) (tr1 : List Event)
    (h : m.Migrate f s = (none, s1, tr1)) :
    ((m.Migrate f2 s1).2.1).ledger = s1.ledger ∧
    ∀ k x, x ∈ s1.ledger → Event.actionRun k x ∉ (m.Migrate f2 s1).2.2 := by
  obtain ⟨ht, hmem, _⟩ := Migrate_ok_mem m f s s1 tr1 h
  obtain ⟨h1, h2⟩ := Migrate_inert m f2 s1 ht hmem
  exact ⟨h1, fun k x _ => h2 k x⟩

theorem C1_idempotent_witness :
    ((Migrate.mk opts0 [Migration.mk "a" none] none).Migrate noFaults
        (St.mk true ["a"])).2.1.ledger = ["a"] ∧
    Event.actionRun 0 "a" ∉
      ((Migrate.mk opts0 [Migration.mk "a" none] none).Migrate noFaults
        (St.mk true ["a"])).2.2 := by
  have h := C1_idempotent (Migrate.mk opts0 [Migration.mk "a" none] none) noFaults noFaults
    (St.mk true []) (St.mk true ["a"]) [Event.actionRun 0 "a"] (by decide)
  exact ⟨h.1, h.2 0 "a" (by decide)⟩

/-- C2: Fail-stop on the incremental path: if the migrations before `B` run
successfully (reaching state `s1`) and `B`'s action fails with `e`, then
`Migrate()` returns `e`, the final state is `s1` (so `B` is not recorded and
everything recorded before `B` stays recorded), and no action at a position
after `B` is ever invoked. -/
theorem C2_failStop (opts : Options) (ini : Option (Option GoErr)) (f : Faults)
    (pre post : List Migration) (B : Migration) (s s1 : St) (tr1 : List Event) (e : GoErr)
    (htbl : s.tableExists = true)
    (hpath : ini = none ∨ isFirstRun f s = false)
    (hpre : runAll f pre 0 s = (none, s1, tr1))
    (hid : B.ID.length ≠ 0) (hdr : f.didRunErr B.ID = none)
    (hmem : B.ID ∉ s1.ledger) (hact : B.Migrate = some e) :
    (Migrate.mk opts (pre ++ B :: post) ini).Migrate f s
        = (some e, s1, tr1 ++ [Event.actionRun pre.length B.ID]) ∧
    B.ID ∉ s1.ledger ∧
    (∀ k x, pre.length < k →
        Event.actionRun k x ∉ tr1 ++ [Event.actionRun pre.length B.ID]) ∧
    (∃ t, s1.ledger = s.ledger ++ t) := by
  have hrunB : runMigration f pre.length B s1
      = (some e, s1, [Event.actionRun pre.length B.ID]) :=
    runMigration_actionFault f pre.length B s1 e hid hdr hmem hact
  have h2 : runAll f (B :: post) (0 + pre.length) s1
      = (some e, s1, [Event.actionRun pre.length B.ID]) := by
    rw [Nat.zero_add]
    exact runAll_cons_err f pre.length B post s1 s1 e _ hrunB
  have hwhole := runAll_append_ok f pre (B :: post) 0 s s1 s1 (some e) tr1
    [Event.actionRun pre.length B.ID] hpre h2
  refine ⟨?_, hmem, ?_, (runAll_struct f pre 0 s s1 none tr1 hpre).2.1⟩
  · rw [Migrate_inc _ f s htbl hpath]
    exact hwhole
  · intro k x hk hin
    rcases List.mem_append.mp hin with hin1 | hin1
    · obtain ⟨_, hk2, _, _⟩ := runAll_actionRun_src f pre 0 s s1 none tr1 k x hpre hin1
      omega
    · simp only [List.mem_singleton, Event.actionRun.injEq] at hin1
      omega

theorem C2_failStop_witness :
    (Migrate.mk opts0 [⟨"a", none⟩, ⟨"b", some (GoErr.other 3)⟩, ⟨"c", none⟩] none).Migrate
        noFaults (St.mk true [])
      = (some (GoErr.other 3), St.mk true ["a"],
         [Event.actionRun 0 "a", Event.actionRun 1 "b"]) ∧
    Event.actionRun 2 "c" ∉ [Event.actionRun 0 "a", Event.actionRun 1 "b"] := by
  have h := C2_failStop opts0 none noFaults [⟨"a", none⟩] [⟨"c", none⟩]
    ⟨"b", some (GoErr.other 3)⟩ (St.mk true []) (St.mk true ["a"]) [Event.actionRun 0 "a"]
    (GoErr.other 3) rfl (Or.inl rfl) (by decide) (by decide) rfl (by decide) rfl
  exact ⟨h.1, h.2.2.1 2 "c" (by decide)⟩

/-- C3: Bootstrap shortcut: with an init-schema function set (and succeeding),
a ledger table that exists with zero rows, pairwise-distinct identifiers and
no insert fault, `Migrate()` invokes the init-schema function exactly once
(the whole trace is that single event, so no migration action is invoked) and
records every identifier of the input list, in input order. -/
theorem C3_bootstrap (opts : Options) (migs : List Migration) (f : Faults) (s : St)
    (htbl : s.tableExists = true) (hemp : s.ledger = [])
    (hnd : (migs.map Migration.ID).Nodup)
    (hins : ∀ id ∈ migs.map Migration.ID, f.insertErr id = none) :
    (Migrate.mk opts migs (some none)).Migrate f s
      = (none, St.mk true (migs.map Migration.ID), [Event.initSchemaRun]) := by
  obtain ⟨te, le⟩ := s
  replace htbl : te = true := htbl
  replace hemp : le = [] := hemp
  subst htbl
  subst hemp
  have hfr : isFirstRun f (St.mk true []) = true := isFirstRun_empty f _ rfl
  rw [Migrate_boot _ f _ none rfl rfl hfr]
  have hia := insertAll_ok f (migs.map Migration.ID) (St.mk true []) hnd
    (by intro id _; simp) hins
  rw [runInitSchema_ok f _ _ _ none hia]
  simp

theorem C3_bootstrap_witness :
    (Migrate.mk opts0 [⟨"a", none⟩, ⟨"b", some (GoErr.other 1)⟩] (some none)).Migrate
        noFaults (St.mk true [])
      = (none, St.mk true ["a", "b"], [Event.initSchemaRun]) :=
  C3_bootstrap opts0 [⟨"a", none⟩, ⟨"b", some (GoErr.other 1)⟩] noFaults
    (St.mk true []) rfl rfl (by decide) (by decide)

/-- C4: Init-schema failure atomicity: when the bootstrap path is taken (the
first-run check reads zero rows) and the init-schema function fails with `e`,
`Migrate()` returns `e`, the ledger contents are unchanged (no identifier is
inserted during the run), and no migration action is invoked. -/
theorem C4_initSchemaFailure (opts : Options) (migs : List Migration) (f : Faults)
    (s : St) (e : GoErr)
    (hcr : s.tableExists = true ∨ f.createErr = none)
    (hfr : isFirstRun f s = true) :
    ((Migrate.mk opts migs (some (some e))).Migrate f s).1 = some e ∧
    ((Migrate.mk opts migs (some (some e))).Migrate f s).2.1.ledger = s.ledger ∧
    ∀ k x, Event.actionRun k x ∉ ((Migrate.mk opts migs (some (some e))).Migrate f s).2.2 := by
  cases htbl : s.tableExists with
  | true =>
    rw [Migrate_boot _ f s (some e) htbl rfl hfr, runInitSchema_fail]
    exact ⟨rfl, rfl, by simp⟩
  | false =>
    have hc : f.createErr = none := by
      rcases hcr with hcr1 | hcr1
      · rw [htbl] at hcr1; cases hcr1
      · exact hcr1
    have hcr2 := create_new f s htbl hc
    have hfr2 : isFirstRun f { s with tableExists := true } = true := hfr
    have hM := (Migrate_step (Migrate.mk opts migs (some (some e))) f s
      { s with tableExists := true } [Event.createTable] hcr2).2
      (some e) rfl hfr2 (some e) { s with tableExists := true } [Event.initSchemaRun]
      (runInitSchema_fail f _ _ e)
    rw [hM]
    exact ⟨rfl, rfl, by simp⟩

theorem C4_initSchemaFailure_witness :
    ((Migrate.mk opts0 [⟨"a", none⟩] (some (some (GoErr.other 2)))).Migrate noFaults
        (St.mk true [])).1 = some (GoErr.other 2) ∧
    ((Migrate.mk opts0 [⟨"a", none⟩] (some (some (GoErr.other 2)))).Migrate noFaults
        (St.mk true [])).2.1.ledger = [] ∧
    Event.actionRun 0 "a" ∉
      ((Migrate.mk opts0 [⟨"a", none⟩] (some (some (GoErr.other 2)))).Migrate noFaults
        (St.mk true [])).2.2 := by
  have h := C4_initSchemaFailure opts0 [⟨"a", none⟩] noFaults (St.mk true [])
    (GoErr.other 2) (Or.inl rfl) (by decide)
  exact ⟨h.1, h.2.1, h.2.2 0 "a"⟩

/-- C5: Ordering and skip of applied migrations: for a list `[A, B, C]` on
the incremental path of a healthy database where `B` is recorded and `A`, `C`
are not, the run invokes exactly `A`'s action then `C`'s action, in input
order (positions 0 then 2), never invokes `B`'s action, and appends exactly
`A`'s and `C`'s identifiers to the ledger. -/
theorem C5_ordering (opts : Options) (ini : Option (Option GoErr)) (A B C : Migration)
    (s : St) (htbl : s.tableExists = true)
    (hB : B.ID ∈ s.ledger) (hBlen : B.ID.length ≠ 0)
    (hA : A.ID ∉ s.ledger) (hAlen : A.ID.length ≠ 0) (hAok : A.Migrate = none)
    (hC : C.ID ∉ s.ledger) (hClen : C.ID.length ≠ 0) (hCok : C.Migrate = none)
    (hCA : C.ID ≠ A.ID) :
    (Migrate.mk opts [A, B, C] ini).Migrate noFaults s
      = (none, { s with ledger := s.ledger ++ [A.ID, C.ID] },
         [Event.actionRun 0 A.ID, Event.actionRun 2 C.ID]) := by
  have hfr : isFirstRun noFaults s = false :=
    isFirstRun_healthy noFaults s rfl (by intro h0; rw [h0] at hB; simp at hB)
  rw [Migrate_inc _ noFaults s htbl (Or.inr hfr)]
  have hstepA := runMigration_invoke_ok noFaults 0 A s hAlen rfl hA hAok rfl
  have hstepB := runMigration_skip noFaults 1 B { s with ledger := s.ledger ++ [A.ID] }
    hBlen rfl (by simp [hB])
  have hstepC := runMigration_invoke_ok noFaults 2 C { s with ledger := s.ledger ++ [A.ID] }
    hClen rfl (by simp [hC, hCA]) hCok rfl
  simp only [runAll, hstepA, hstepB, hstepC]
  simp

theorem C5_ordering_witness :
    (Migrate.mk opts0 [⟨"a", none⟩, ⟨"b", none⟩, ⟨"c", none⟩] none).Migrate noFaults
        (St.mk true ["b"])
      = (none, St.mk true ["b", "a", "c"],
         [Event.actionRun 0 "a", Event.actionRun 2 "c"]) := by
  have h := C5_ordering opts0 none ⟨"a", none⟩ ⟨"b", none⟩ ⟨"c", none⟩ (St.mk true ["b"])
    rfl (by decide) (by decide) (by decide) (by decide) rfl (by decide) (by decide) rfl
    (by decide)
  exact h

/-- C6 counterexample: the claim "a migration with identifier `""` at any
position makes `Migrate()` abort with `ErrMissingID`" is false: with an
init-schema function set and an empty ledger the bootstrap path validates no
identifier — the run returns nil (not `ErrMissingID`) and even inserts the
empty identifier into the ledger. -/
theorem C6_counterexample :
    ((Migrate.mk opts0 [Migration.mk "" none] (some none)).Migrate noFaults
        (St.mk true [])) = (none, St.mk true [""], [Event.initSchemaRun]) ∧
    ((Migrate.mk opts0 [Migration.mk "" none] (some none)).Migrate noFaults
        (St.mk true [])).1 ≠ some GoErr.errMissingID := by
  exact ⟨by decide, by decide⟩

/-- C6 (amended): empty-identifier rejection holds on the incremental path:
if the run does not take the bootstrap path and the migrations before the
empty-identifier one run successfully, `Migrate()` returns `ErrMissingID`,
and no action at the empty-identifier position or later is invoked (the
bootstrap path, by contrast, never validates identifiers — see the
counterexample). -/
theorem C6_emptyID_incremental (opts : Options) (ini : Option (Option GoErr)) (f : Faults)
    (pre post : List Migration) (M : Migration) (s s1 : St) (tr1 : List Event)
    (htbl : s.tableExists = true)
    (hpath : ini = none ∨ isFirstRun f s = false)
    (hlen : M.ID.length = 0)
    (hpre : runAll f pre 0 s = (none, s1, tr1)) :
    (Migrate.mk opts (pre ++ M :: post) ini).Migrate f s
        = (some GoErr.errMissingID, s1, tr1) ∧
    ∀ k x, pre.length ≤ k → Event.actionRun k x ∉ tr1 := by
  constructor
  · rw [Migrate_inc _ f s htbl hpath]
    have hM : runMigration f pre.length M s1 = (some GoErr.errMissingID, s1, []) :=
      runMigration_emptyID f pre.length M s1 hlen
    have h2 : runAll f (M :: post) (0 + pre.length) s1
        = (some GoErr.errMissingID, s1, []) := by
      rw [Nat.zero_add]
      exact runAll_cons_err f pre.length M post s1 s1 _ [] hM
    have := runAll_append_ok f pre (M :: post) 0 s s1 s1 _ tr1 [] hpre h2
    simpa using this
  · intro k x hk hin
    obtain ⟨_, hk2, _, _⟩ := runAll_actionRun_src f pre 0 s s1 none tr1 k x hpre hin
    omega

theorem C6_emptyID_witness :
    (Migrate.mk opts0 [⟨"a", none⟩, ⟨"", none⟩, ⟨"c", none⟩] none).Migrate noFaults
        (St.mk true [])
      = (some GoErr.errMissingID, St.mk true ["a"], [Event.actionRun 0 "a"]) ∧
    Event.actionRun 1 "" ∉ [Event.actionRun 0 "a"] ∧
    Event.actionRun 2 "c" ∉ [Event.actionRun 0 "a"] := by
  have h := C6_emptyID_incremental opts0 none noFaults [⟨"a", none⟩] [⟨"c", none⟩]
    ⟨"", none⟩ (St.mk true []) (St.mk true ["a"]) [Event.actionRun 0 "a"]
    rfl (Or.inl rfl) rfl (by decide)
  exact ⟨h.1, h.2 1 "" (by decide), h.2 2 "c" (by decide)⟩

/-- C7 counterexample: the claim that a failing zero-rows existence check
(first-run detection) makes `Migrate()` return that error is false: under
`firstRunFault` the count query fails with `GoErr.other 7`, yet the run
returns nil — the error is ignored and the failed count reads as an empty
ledger (taking the bootstrap path even though the ledger is non-empty). -/
theorem C7_counterexample :
    firstRunFault.firstRunErr = some (GoErr.other 7) ∧
    ((Migrate.mk opts0 [] (some none)).Migrate firstRunFault (St.mk true ["a"]))
      = (none, St.mk true ["a"], [Event.initSchemaRun]) ∧
    ((Migrate.mk opts0 [] (some none)).Migrate firstRunFault (St.mk true ["a"])).1
      ≠ some (GoErr.other 7) := by
  exact ⟨rfl, by decide, by decide⟩

/-- C7 (amended): store-error propagation holds for ledger-table creation,
the per-identifier applied check, and the ledger insert — each such failure
is returned by `Migrate()` — but not for the zero-rows existence check of
first-run detection, whose database error is silently ignored. -/
theorem C7_storeErrors :
    (∀ (m : Migrate) (f : Faults) (s : St) (e : GoErr),
      s.tableExists = false → f.createErr = some e →
        m.Migrate f s = (some e, s, [Event.createTable])) ∧
    (∀ (opts : Options) (ini : Option (Option GoErr)) (f : Faults) (mig : Migration)
        (rest : List Migration) (s : St) (e : GoErr),
      s.tableExists = true → (ini = none ∨ isFirstRun f s = false) →
      mig.ID.length ≠ 0 → f.didRunErr mig.ID = some e →
        (Migrate.mk opts (mig :: rest) ini).Migrate f s = (some e, s, [])) ∧
    (∀ (opts : Options) (ini : Option (Option GoErr)) (f : Faults) (mig : Migration)
        (rest : List Migration) (s : St) (e : GoErr),
      s.tableExists = true → (ini = none ∨ isFirstRun f s = false) →
      mig.ID.length ≠ 0 → f.didRunErr mig.ID = none → mig.ID ∉ s.ledger →
      mig.Migrate = none → f.insertErr mig.ID = some e →
        (Migrate.mk opts (mig :: rest) ini).Migrate f s
          = (some e, s, [Event.actionRun 0 mig.ID])) ∧
    ((Migrate.mk opts0 [] (some none)).Migrate firstRunFault (St.mk true ["a"])).1
      = none := by
  refine ⟨?_, ?_, ?_, by decide⟩
  · intro m f s e htbl hc
    exact Migrate_createErr m f s s e [Event.createTable] (create_fault f s e htbl hc)
  · intro opts ini f mig rest s e htbl hpath hid hdr
    rw [Migrate_inc _ f s htbl hpath]
    exact runAll_cons_err f 0 mig rest s s e [] (runMigration_didRunFault f 0 mig s e hid hdr)
  · intro opts ini f mig rest s e htbl hpath hid hdr hmem hact hins
    rw [Migrate_inc _ f s htbl hpath]
    exact runAll_cons_err f 0 mig rest s s e [Event.actionRun 0 mig.ID]
      (runMigration_insertFault f 0 mig s e hid hdr hmem hact hins)

theorem C7_storeErrors_witness :
    (Migrate.mk opts0 [] none).Migrate
        { noFaults with createErr := some (GoErr.other 4) } (St.mk false [])
      = (some (GoErr.other 4), St.mk false [], [Event.createTable]) ∧
    (Migrate.mk opts0 [⟨"a", none⟩] none).Migrate
        { noFaults with didRunErr := fun _ => some (GoErr.other 5) } (St.mk true [])
      = (some (GoErr.other 5), St.mk true [], []) ∧
    (Migrate.mk opts0 [⟨"a", none⟩] none).Migrate
        { noFaults with insertErr := fun _ => some (GoErr.other 6) } (St.mk true [])
      = (some (GoErr.other 6), St.mk true [], [Event.actionRun 0 "a"]) := by
  refine ⟨C7_storeErrors.1 _ _ _ _ rfl rfl, ?_, ?_⟩
  · exact C7_storeErrors.2.1 opts0 none _ ⟨"a", none⟩ [] (St.mk true []) (GoErr.other 5)
      rfl (Or.inl rfl) (by decide) rfl
  · exact C7_storeErrors.2.2.1 opts0 none _ ⟨"a", none⟩ [] (St.mk true []) (GoErr.other 6)
      rfl (Or.inl rfl) (by decide) rfl (by decide) rfl rfl

/-- C8: Ledger-table creation idempotence and preservation:
`createMigrationTableIfNotExists` is a no-op when the table exists, issues
the `CREATE TABLE` statement only when the table does not exist, and once the
table exists no engine run ever removes it (the model's operations can only
create the table and append ledger rows — nothing drops or alters it). -/
theorem C8_tableInvariant :
    (∀ (f : Faults) (s : St), s.tableExists = true →
      createMigrationTableIfNotExists f s = (none, s, [])) ∧
    (∀ (f : Faults) (s : St),
      Event.createTable ∈ (createMigrationTableIfNotExists f s).2.2 →
        s.tableExists = false) ∧
    (∀ (m : Migrate) (f : Faults) (s : St), s.tableExists = true →
      ((m.Migrate f s).2.1).tableExists = true) := by
  refine ⟨fun f s h => create_exists f s h, ?_, ?_⟩
  · intro f s h
    cases htbl : s.tableExists with
    | false => rfl
    | true =>
      rw [create_exists f s htbl] at h
      simp at h
  · intro m f s htbl
    cases hini : m.initSchema with
    | none =>
      rw [Migrate_inc m f s htbl (Or.inl hini)]
      rcases hra : runAll f m.migrations 0 s with ⟨r, s2, tr2⟩
      have hte := (runAll_struct f m.migrations 0 s s2 r tr2 hra).1
      simpa [hte] using htbl
    | some o =>
      by_cases hfr : isFirstRun f s = true
      · rw [Migrate_boot m f s o htbl hini hfr]
        rcases hri : runInitSchema f o (m.migrations.map Migration.ID) s with ⟨r, s2, tr2⟩
        have hte := (runInitSchema_cases f o _ s s2 r tr2 hri).2.1
        simpa [hte] using htbl
      · rw [Migrate_inc m f s htbl (Or.inr (by simpa using hfr))]
        rcases hra : runAll f m.migrations 0 s with ⟨r, s2, tr2⟩
        have hte := (runAll_struct f m.migrations 0 s s2 r tr2 hra).1
        simpa [hte] using htbl

theorem C8_tableInvariant_witness :
    createMigrationTableIfNotExists noFaults (St.mk true ["a"])
      = (none, St.mk true ["a"], []) ∧
    (((Migrate.mk opts0 [⟨"a", none⟩] none).Migrate noFaults
        (St.mk true [])).2.1).tableExists = true := by
  exact ⟨C8_tableInvariant.1 noFaults (St.mk true ["a"]) rfl,
    C8_tableInvariant.2.2 (Migrate.mk opts0 [⟨"a", none⟩] none) noFaults (St.mk true []) rfl⟩

/-- C10: Bootstrap ledger marking is not atomic: on the bootstrap path (table
exists, ledger empty, init-schema succeeds, identifiers distinct), if the
insert of the identifier at position `|pre|` fails with `e` while the inserts
of `pre` succeed, `Migrate()` returns `e` with exactly the identifiers of
`pre` recorded: every identifier before the failing position is in the
ledger, and the failing identifier and every later one are not. -/
theorem C10_partialBootstrap (opts : Options) (migs : List Migration) (f : Faults)
    (s : St) (e : GoErr) (pre post : List String) (x : String)
    (htbl : s.tableExists = true) (hemp : s.ledger = [])
    (hsplit : migs.map Migration.ID = pre ++ x :: post)
    (hnd : (migs.map Migration.ID).Nodup)
    (hfp : ∀ id ∈ pre, f.insertErr id = none)
    (hxe : f.insertErr x = some e) :
    (Migrate.mk opts migs (some none)).Migrate f s
        = (some e, St.mk true pre, [Event.initSchemaRun]) ∧
    x ∉ pre ∧ (∀ id ∈ post, id ∉ pre) := by
  rw [hsplit] at hnd
  obtain ⟨hnd1, hnd2, hdisj⟩ := List.nodup_append.mp hnd
  have hxp : x ∉ pre := fun hx => hdisj hx (by simp)
  have hpost : ∀ id ∈ post, id ∉ pre := by
    intro id hid hmem
    exact hdisj hmem (by simp [hid])
  obtain ⟨te, le⟩ := s
  replace htbl : te = true := htbl
  replace hemp : le = [] := hemp
  subst htbl
  subst hemp
  refine ⟨?_, hxp, hpost⟩
  rw [Migrate_boot _ f _ none rfl rfl (isFirstRun_empty f _ rfl)]
  have hia := insertAll_fault_at f pre post x e (St.mk true []) hnd1
    (by intro id _; simp) hfp (by simp) hxp hxe
  rw [hsplit, runInitSchema_ok f (pre ++ x :: post) _ _ (some e) hia]
  simp

theorem C10_partialBootstrap_witness :
    (Migrate.mk opts0 [⟨"a", none⟩, ⟨"b", none⟩, ⟨"c", none⟩] (some none)).Migrate
        { noFaults with insertErr := fun id => if id = "b" then some (GoErr.other 9) else none }
        (St.mk true [])
      = (some (GoErr.other 9), St.mk true ["a"], [Event.initSchemaRun]) ∧
    "b" ∉ ["a"] ∧ "c" ∉ ["a"] := by
  have h := C10_partialBootstrap opts0 [⟨"a", none⟩, ⟨"b", none⟩, ⟨"c", none⟩]
    { noFaults with insertErr := fun id => if id = "b" then some (GoErr.other 9) else none }
    (St.mk true []) (GoErr.other 9) ["a"] ["c"] "b" rfl rfl (by decide) (by decide)
    (by decide) (by decide)
  exact ⟨h.1, h.2.1, h.2.2 "c" (by decide)⟩

/-- C9: Duplicate identifiers run once on the incremental path: when the same
identifier occurs at positions `i < j` of the list, `i` is its first
occurrence, and it is not yet recorded, a successful run invokes the action
at position `i` and emits no action invocation at position `j`: the
identifier is inserted right after position `i` succeeds, so position `j` is
skipped. -/
theorem C9_duplicateOnce (opts : Options) (ini : Option (Option GoErr)) (f : Faults)
    (migs : List Migration) (s s1 : St) (tr : List Event) (i j : Nat)
    (hi : i < migs.length) (hj : j < migs.length) (hij : i < j)
    (htbl : s.tableExists = true)
    (hpath : ini = none ∨ isFirstRun f s = false)
    (hrun : (Migrate.mk opts migs ini).Migrate f s = (none, s1, tr))
    (heq : (migs.get ⟨j, hj⟩).ID = (migs.get ⟨i, hi⟩).ID)
    (hfirst : ∀ k (hk : k < migs.length), k < i →
      (migs.get ⟨k, hk⟩).ID ≠ (migs.get ⟨i, hi⟩).ID)
    (hfresh : (migs.get ⟨i, hi⟩).ID ∉ s.ledger) :
    Event.actionRun i (migs.get ⟨i, hi⟩).ID ∈ tr ∧
    ∀ x, Event.actionRun j x ∉ tr := by
  rw [Migrate_inc _ f s htbl hpath] at hrun
  have hlt : (migs.take i).length = i := by
    rw [List.length_take]
    omega
  have hdec : migs.take i ++ (migs.get ⟨i, hi⟩) :: migs.drop (i + 1) = migs := by
    conv_rhs => rw [← List.take_append_drop i migs, List.drop_eq_getElem_cons hi]
    simp [List.get_eq_getElem]
  rw [← hdec] at hrun
  rcases hA : runAll f (migs.take i) 0 s with ⟨rA, sA, trA⟩
  cases rA with
  | some e =>
    rw [runAll_append_err f _ _ 0 s sA e trA hA] at hrun
    simp at hrun
  | none =>
    have hAfresh : (migs.get ⟨i, hi⟩).ID ∉ sA.ledger := by
      intro hmem
      rcases (runAll_struct f (migs.take i) 0 s sA none trA hA).2.2 _ hmem with hs | hmap
      · exact hfresh hs
      · obtain ⟨mig, hmigmem, hmigid⟩ := List.mem_map.mp hmap
        obtain ⟨k, hk, hkeq⟩ := List.getElem_of_mem hmigmem
        have hki : k < i := by
          rw [hlt] at hk
          exact hk
        have hkm : k < migs.length := by omega
        refine hfirst k hkm hki ?_
        rw [List.get_eq_getElem]
        rw [← hmigid, ← hkeq, List.getElem_take]
    rcases hB : runMigration f i (migs.get ⟨i, hi⟩) sA with ⟨rB, sB, trB⟩
    cases rB with
    | some e =>
      have h2 : runAll f ((migs.get ⟨i, hi⟩) :: migs.drop (i + 1))
          (0 + (migs.take i).length) sA = (some e, sB, trB) := by
        rw [Nat.zero_add, hlt]
        exact runAll_cons_err f i _ _ sA sB e trB hB
      rw [runAll_append_ok f _ _ 0 s sA sB (some e) trA trB hA h2] at hrun
      simp at hrun
    | none =>
      rcases runMigration_ok_cases f i _ sA sB trB hB with
        ⟨hmem, _, _⟩ | ⟨_, hsB, htrB, _, _, _, _⟩
      · exact absurd hmem hAfresh
      · rcases hC : runAll f (migs.drop (i + 1)) (i + 1) sB with ⟨rC, sC, trC⟩
        have h2 : runAll f ((migs.get ⟨i, hi⟩) :: migs.drop (i + 1))
            (0 + (migs.take i).length) sA = (rC, sC, trB ++ trC) := by
          rw [Nat.zero_add, hlt]
          exact runAll_cons_ok f i _ _ sA sB sC rC trB trC hB hC
        rw [runAll_append_ok f _ _ 0 s sA sC rC trA (trB ++ trC) hA h2] at hrun
        cases hrun
        constructor
        · simp [htrB]
        · intro x hin
          rcases List.mem_append.mp hin with hin1 | hin1
          · obtain ⟨_, hk2, _, _⟩ :=
              runAll_actionRun_src f (migs.take i) 0 s sA none trA j x hA hin1
            rw [hlt] at hk2
            omega
          · rcases List.mem_append.mp hin1 with hin2 | hin2
            · rw [htrB] at hin2
              simp only [List.mem_singleton, Event.actionRun.injEq] at hin2
              omega
            · obtain ⟨hik, hk2, hx, hnm⟩ :=
                runAll_actionRun_src f (migs.drop (i + 1)) (i + 1) sB s1 none trC j x hC hin2
              apply hnm
              have hgd : (migs.drop (i + 1)).get ⟨j - (i + 1), hk2⟩ = migs.get ⟨j, hj⟩ := by
                have h5 : migs.get ⟨(i + 1) + (j - (i + 1)), by omega⟩
                    = (migs.drop (i + 1)).get ⟨j - (i + 1), hk2⟩ := by
                  rw [List.get_eq_getElem, List.get_eq_getElem, List.getElem_drop]
                rw [← h5]
                congr 1
                exact Fin.ext (by simp; omega)
              rw [hx, hgd, heq, hsB]
              simp

theorem C9_duplicateOnce_witness :
    Event.actionRun 0 "a" ∈ [Event.actionRun 0 "a", Event.actionRun 1 "b"] ∧
    Event.actionRun 2 "x" ∉ [Event.actionRun 0 "a", Event.actionRun 1 "b"] ∧
    (Migrate.mk opts0 [⟨"a", none⟩, ⟨"b", none⟩, ⟨"a", none⟩] none).Migrate noFaults
        (St.mk true [])
      = (none, St.mk true ["a", "b"], [Event.actionRun 0 "a", Event.actionRun 1 "b"]) := by
  have h := C9_duplicateOnce opts0 none noFaults
    [⟨"a", none⟩, ⟨"b", none⟩, ⟨"a", none⟩] (St.mk true []) (St.mk true ["a", "b"])
    [Event.actionRun 0 "a", Event.actionRun 1 "b"] 0 2 (by decide) (by decide) (by decide)
    rfl (Or.inl rfl) (by decide) (by decide)
    (by intro k hk hlt; omega) (by decide)
  exact ⟨h.1, h.2 "x", by decide⟩

end Gormmigrate
